import Mathlib

/-!
Verification of the term-symbol computation in `chitose` (src/src/lib.rs).

The source computes Russell-Saunders term symbols for a subshell with
orbital quantum number `L` (a `u8`) holding `n` equivalent electrons:

* `SubLevelType::max_electrons` computes `2*(2L+1)` with checked `u8`
  arithmetic (panics past the `u8` range);
* `SubLevel::new` validates `n <= max_electrons`;
* `ee_terms_log` enumerates every `n`-combination of the `2*(2L+1)`
  single-electron `(ml, ms)` states (spins doubled, `ms` ranges over
  `[-1, 1]`), sums each combination into an `(ML, MS)` pair with an
  `i8` accumulator, buckets the microstate labels into a
  `BTreeMap<i8, BTreeMap<i8, Vec<String>>>`, and then repeatedly peels
  the maximal-key rectangle off the table, emitting one `TermType` per
  iteration into a `HashMap<TermType, Vec<String>>`;
* `ee_terms` is `ee_terms_log` with a null sink.

The embedding below keeps machine integers as `Nat`/`Int` with the
checked operations made explicit as `Option`, models each `expect`
panic as `none`, models the `BTreeMap`s as key-sorted association
lists, and models the `while` loop with fuel (the loop exits normally
only when the table is empty, so `none` covers both a panic and a
diverging run out of fuel).  Logging is pure presentation and is kept
only where it carries data (the emitted term sequence, one entry per
loop iteration, mirrors the `writeln!(log(), "{term}")` lines).
Microstate labels are modelled as the list of 1-based state indices;
the source renders exactly this list as a space-separated string, an
injective rendering, so label distinctness is faithfully represented.
-/

namespace Chitose

/-- Checked `u8` multiplication: `a.checked_mul(b)` on the `u8` range. -/
def checkedMulU8 (a b : Nat) : Option Nat :=
  if a * b ≤ 255 then some (a * b) else none

/-- Checked `u8` addition: `a.checked_add(b)` on the `u8` range. -/
def checkedAddU8 (a b : Nat) : Option Nat :=
  if a + b ≤ 255 then some (a + b) else none

/-- `SubLevelType(pub u8)`: the orbital quantum number `L`. -/
structure SubLevelType where
  val : Nat
deriving DecidableEq

/-- `SubLevelType::max_electrons`: `self.0.checked_mul(2).checked_add(1).checked_mul(2)`,
`none` models the `.expect(WHY)` panic on `u8` overflow. -/
def SubLevelType.maxElectrons (t : SubLevelType) : Option Nat :=
  (checkedMulU8 t.val 2).bind fun r =>
    (checkedAddU8 r 1).bind fun r2 => checkedMulU8 r2 2

/-- `SubLevelType::mls`: the range `-L..=L` (after the `u8 → i8`
conversion, whose panic cannot fire for any `L` accepted by
`max_electrons`). -/
def SubLevelType.mls (t : SubLevelType) : List Int :=
  (List.range (2 * t.val + 1)).map fun i : Nat => (i : Int) - t.val

/-- The `Display` name of a sublevel type (`s`, `p`, ... or a generic form). -/
def SubLevelType.name (t : SubLevelType) : String :=
  match t.val with
  | 0 => "s"
  | 1 => "p"
  | 2 => "d"
  | 3 => "f"
  | 4 => "g"
  | 5 => "h"
  | 6 => "i"
  | _ => "(L=" ++ toString t.val ++ ")"

/-- `SubLevel { tp, electrons }`. -/
structure SubLevel where
  tp : SubLevelType
  electrons : Nat
deriving DecidableEq

/-- `LevelError::ToMuch(SubLevelType)`, the only error variant. -/
inductive LevelError where
  | ToMuch : SubLevelType → LevelError
deriving DecidableEq

/-- The `thiserror` display string of `LevelError::ToMuch`; it calls
`max_electrons` again, so it is `Option`-valued like that call. -/
def LevelError.message : LevelError → Option String
  | .ToMuch t =>
    (t.maxElectrons).map fun cap =>
      "There could be at most " ++ toString cap ++ " electrons on the " ++
        t.name ++ " sublevel"

/-- `SubLevel::new`: validate `electrons <= t.max_electrons()`.  The outer
`Option` models the panic inside `max_electrons`; the `Except` is the
`Result` of the source. -/
def SubLevel.new (t : SubLevelType) (electrons : Nat) :
    Option (Except LevelError SubLevel) :=
  (t.maxElectrons).map fun cap =>
    if electrons ≤ cap then .ok ⟨t, electrons⟩ else .error (.ToMuch t)

/-- `TermType { momentum, multiplet }` (the `TermMomentum` newtype is
inlined as the `Nat` it wraps). -/
structure TermType where
  momentum : Nat
  multiplet : Nat
deriving DecidableEq

/-- `static SPINS: [i8; 2] = [-1, 1]` (spins are doubled in the code). -/
def SPINS : List Int := [-1, 1]

/-- `itertools::cartesian_product`: all pairs, second component varying
fastest. -/
def cartesianProduct (xs : List α) (ys : List β) : List (α × β) :=
  xs.flatMap fun x => ys.map fun y => (x, y)

/-- The ordered list of single-electron states
`l.tp.mls().cartesian_product(SPINS)`. -/
def singleStates (L : Nat) : List (Int × Int) :=
  cartesianProduct (SubLevelType.mls ⟨L⟩) SPINS

/-- `itertools::combinations` on a list: every `n`-combination, in the
order produced by the iterator (all combinations containing the first
element first). -/
def combinations : Nat → List Nat → List (List Nat)
  | 0, _ => [[]]
  | n + 1, l =>
    match l with
    | [] => []
    | x :: xs =>
      ((combinations n xs).map fun c => x :: c) ++ combinations (n + 1) xs

/-- A microstate label: the 1-based single-electron state indices chosen,
in order.  The source renders this as the space-separated string built by
`repr.0.push_str(&format!("{} ", next + 1))`. -/
abbrev Label := List Nat

/-- The fold inside `ee_terms_log` building one microstate representation
`(label, ML, MS)` from a combination of state indices, with exact integer
arithmetic.  The source accumulates in `i8` (`repr.1 += ...`), which
panics on overflow under debug assertions; `microstateChecked` below is
the faithful checked version.  The two agree exactly when no partial sum
leaves the `i8` range: this is proved for every combination when
`L ≤ 6` and for the full-shell combination when `L ≤ 10`; beyond that
the source can panic where this exact fold keeps the mathematical
value. -/
def microstateFold (states : List (Int × Int)) :
    List Nat → Label × Int × Int → Label × Int × Int
  | [], acc => acc
  | next :: rest, (lab, aML, aMS) =>
    microstateFold states rest
      (lab ++ [next + 1],
       aML + (states.getD next (0, 0)).1,
       aMS + (states.getD next (0, 0)).2)

/-- One microstate representation from a combination. -/
def microstate (states : List (Int × Int)) (combo : List Nat) :
    Label × Int × Int :=
  microstateFold states combo ([], 0, 0)

/-- Checked `i8` range test: `none` models a debug-mode overflow panic of
the `+=` on an `i8`. -/
def checkedI8 (r : Int) : Option Int :=
  if -128 ≤ r ∧ r ≤ 127 then some r else none

/-- The same fold with the `i8` overflow checks made explicit. -/
def microstateChecked (states : List (Int × Int)) :
    List Nat → Label × Int × Int → Option (Label × Int × Int)
  | [], acc => some acc
  | next :: rest, (lab, aML, aMS) =>
    (checkedI8 (aML + (states.getD next (0, 0)).1)).bind fun ml =>
      (checkedI8 (aMS + (states.getD next (0, 0)).2)).bind fun ms =>
        microstateChecked states rest (lab ++ [next + 1], ml, ms)

/-- `level_states`: every `n`-combination of indices into the
single-state list, mapped to its `(label, ML, MS)` representation. -/
def levelStates (L n : Nat) : List (Label × Int × Int) :=
  (combinations n (List.range (singleStates L).length)).map
    (microstate (singleStates L))

/-- A `Vec<String>` bucket of microstate labels. -/
abbrev Bucket := List Label

/-- The inner `BTreeMap<i8, Vec<String>>`: association list with keys in
ascending order. -/
abbrev Row := List (Int × Bucket)

/-- The outer `BTreeMap<i8, BTreeMap<i8, Vec<String>>>`. -/
abbrev Table := List (Int × Row)

/-- Key lookup in a key-sorted association list (`BTreeMap::get`). -/
def alGet (k : Int) : List (Int × α) → Option α
  | [] => none
  | (k2, v) :: rest => if k = k2 then some v else alGet k rest

/-- Replace the value at a key (result of a `get_mut` mutation). -/
def alSet (k : Int) (nv : α) : List (Int × α) → List (Int × α)
  | [] => []
  | (k2, v) :: rest =>
    if k = k2 then (k2, nv) :: rest else (k2, v) :: alSet k nv rest

/-- `BTreeMap::remove_entry`. -/
def alRemove (k : Int) : List (Int × α) → List (Int × α)
  | [] => []
  | (k2, v) :: rest => if k = k2 then rest else (k2, v) :: alRemove k rest

/-- `row.entry(ms).or_default().push(name)` keeping keys ascending. -/
def rowInsert (ms : Int) (name : Label) : Row → Row
  | [] => [(ms, [name])]
  | (k, b) :: rest =>
    if ms < k then (ms, [name]) :: (k, b) :: rest
    else if ms = k then (k, b ++ [name]) :: rest
    else (k, b) :: rowInsert ms name rest

/-- `table.entry(ml).or_default().entry(ms).or_default().push(name)`. -/
def tableInsert (ml ms : Int) (name : Label) : Table → Table
  | [] => [(ml, rowInsert ms name [])]
  | (k, row) :: rest =>
    if ml < k then (ml, rowInsert ms name []) :: (k, row) :: rest
    else if ml = k then (k, rowInsert ms name row) :: rest
    else (k, row) :: tableInsert ml ms name rest

/-- Build `sorted_states` from the microstate list. -/
def aggregate (states : List (Label × Int × Int)) : Table :=
  states.foldl (fun t r => tableInsert r.2.1 r.2.2 r.1 t) []

/-- Total number of stored labels in a row. -/
def rowSize (row : Row) : Nat := (row.map fun p => p.2.length).sum

/-- Total number of stored labels in the table. -/
def tableSize (t : Table) : Nat := (t.map fun p => rowSize p.2).sum

/-- The integer range `a..=b` as a list. -/
def intRange (a b : Int) : List Int :=
  (List.range (b - a + 1).toNat).map fun i : Nat => a + (i : Int)

/-- `(-s..=s).step_by(2)` as a list. -/
def msRange (s : Int) : List Int :=
  (List.range (s + 1).toNat).map fun i : Nat => -s + 2 * (i : Int)

/-- Pop one label (`Vec::pop`, the last element) from the bucket at spin
key `s`, removing the bucket when it becomes empty.  `none` models the
`expect` panics for a missing spin entry and for an empty bucket. -/
def popBucket (row : Row) (s : Int) : Option (Label × Row) :=
  (alGet s row).bind fun b =>
    match b.getLast? with
    | none => none
    | some lbl =>
      some (lbl,
        if b.dropLast = [] then alRemove s row else alSet s b.dropLast row)

/-- Run `popBucket` for every spin key in `sList` on one row (the inner
`for s in (-s..=s).step_by(2)` loop). -/
def popRow (row : Row) : List Int → Option (List Label × Row)
  | [] => some ([], row)
  | s :: rest =>
    (popBucket row s).bind fun pr =>
      (popRow pr.2 rest).bind fun qr =>
        some (pr.1 :: qr.1, qr.2)

/-- The outer removal loop `for l in -l..=l`, popping the whole
`sList` rectangle column by column and dropping rows that become empty.
`none` models the `expect` panic for a missing `ml` entry. -/
def popTable (sList : List Int) : Table → List Int → Option (List Label × Table)
  | t, [] => some ([], t)
  | t, ml :: rest =>
    (alGet ml t).bind fun row =>
      (popRow row sList).bind fun pr =>
        let t2 := if pr.2 = [] then alRemove ml t else alSet ml pr.2 t
        (popTable sList t2 rest).bind fun qr =>
          some (pr.1 ++ qr.1, qr.2)

/-- One iteration of the extraction loop: read the maximal `ml` key and
the maximal `ms` key inside it, build the `TermType` (the `try_into`
calls panic on a negative maximum, modelled by the sign guards), then
remove one label from every cell of the `(2L+1) x (2S+1)` rectangle. -/
def extractStep (t : Table) : Option (TermType × List Label × Table) :=
  t.getLast?.bind fun lkv =>
    (alGet lkv.1 t).bind fun row =>
      row.getLast?.bind fun skv =>
        (if 0 ≤ lkv.1 then some lkv.1.toNat else none).bind fun momentum =>
          (if 0 ≤ skv.1 + 1 then some (skv.1 + 1).toNat else none).bind
            fun mult =>
              (popTable (msRange skv.1) t (intRange (-lkv.1) lkv.1)).bind
                fun pr =>
                  some (⟨momentum, mult⟩, pr.1, pr.2)

/-- `term_states.entry(term).or_default()` followed by pushing each
removed label: an insertion-ordered association list standing for the
`HashMap<TermType, Vec<String>>` contents. -/
def insertTerm (term : TermType) (lbls : List Label) :
    List (TermType × List Label) → List (TermType × List Label)
  | [] => [(term, lbls)]
  | (t, v) :: rest =>
    if t = term then (t, v ++ lbls) :: rest
    else (t, v) :: insertTerm term lbls rest

/-- The `while let Some((&l, _)) = sorted_states.last_key_value()` loop.
`acc` is the `term_states` map; `log` is the sequence of terms printed by
`writeln!(log(), "{term}")`, one per iteration.  Fuel bounds the number
of iterations; `none` covers a panic and fuel exhaustion (the source
loop exits normally only with an empty table). -/
def extractLoop : Nat → Table → List (TermType × List Label) →
    List TermType → Option (List (TermType × List Label) × List TermType)
  | fuel, t, acc, log =>
    match t.getLast? with
    | none => some (acc, log)
    | some _ =>
      match fuel with
      | 0 => none
      | fuel' + 1 =>
        match extractStep t with
        | none => none
        | some (term, lbls, t2) =>
          extractLoop fuel' t2 (insertTerm term lbls acc) (log ++ [term])

/-- The whole `ee_terms_log` pipeline for a subshell `(L, n)`, returning
the final `term_states` association list together with the emitted term
sequence.  The fuel `(levelStates L n).length` suffices because every
successful iteration removes at least one label. -/
def eeTermsFull (L n : Nat) :
    Option (List (TermType × List Label) × List TermType) :=
  extractLoop (levelStates L n).length (aggregate (levelStates L n)) [] []

/-- The observable result: the `HashMap` keys (in first-insertion order
as the canonical representative) and the emitted term sequence. -/
def eeTermsResult (L n : Nat) : Option (List TermType × List TermType) :=
  (eeTermsFull L n).map fun p => (p.1.map Prod.fst, p.2)

/-- `out` is a possible return vector of `ee_terms`/`ee_terms_log` on
`(L, n)`: the run did not panic and `out` lists the `term_states` keys in
some order.  `HashMap::into_keys` iterates in an order that depends on
the per-instance random hash seed and is documented as unspecified, so
any permutation of the keys is a possible observed vector. -/
def IsRunResult (L n : Nat) (out : List TermType) : Prop :=
  ∃ keys log, eeTermsResult L n = some (keys, log) ∧ out.Perm keys

/-- The weight `(2*L+1)*(2*S_true+1)` of an emitted term: the number of
labels its extraction iteration removes. -/
def termWeight (t : TermType) : Nat := (2 * t.momentum + 1) * t.multiplet

/-! ### Lemmas about the combination generator -/

theorem mem_combinations {n : Nat} {l c : List Nat} :
    c ∈ combinations n l ↔ List.Sublist c l ∧ c.length = n := by
  induction l generalizing n c with
  | nil =>
    cases n with
    | zero =>
      simp only [combinations, List.mem_singleton, List.length_eq_zero]
      constructor
      · rintro rfl; exact ⟨List.Sublist.refl _, rfl⟩
      · rintro ⟨h, rfl⟩; rfl
    | succ n =>
      simp only [combinations, List.not_mem_nil, false_iff, not_and]
      intro hs
      have := List.sublist_nil.mp hs
      subst this
      simp
  | cons x xs ih =>
    cases n with
    | zero =>
      simp only [combinations, List.mem_singleton, List.length_eq_zero]
      constructor
      · rintro rfl; exact ⟨List.nil_sublist _, rfl⟩
      · rintro ⟨h, rfl⟩; rfl
    | succ n =>
      simp only [combinations, List.mem_append, List.mem_map, ih]
      constructor
      · rintro (⟨c2, ⟨hs, hlen⟩, rfl⟩ | ⟨hs, hlen⟩)
        · exact ⟨hs.cons₂ x, by simp [hlen]⟩
        · exact ⟨hs.cons x, hlen⟩
      · rintro ⟨hs, hlen⟩
        rcases List.sublist_cons_iff.mp hs with h | ⟨r, rfl, hr⟩
        · exact Or.inr ⟨h, hlen⟩
        · exact Or.inl ⟨r, ⟨hr, by simpa using hlen⟩, rfl⟩

theorem length_combinations (n : Nat) (l : List Nat) :
    (combinations n l).length = Nat.choose l.length n := by
  induction l generalizing n with
  | nil => cases n <;> simp [combinations]
  | cons x xs ih =>
    cases n with
    | zero => simp [combinations]
    | succ n =>
      simp only [combinations, List.length_append, List.length_map, ih,
        List.length_cons, Nat.choose_succ_succ]

theorem combinations_eq_nil {n : Nat} {l : List Nat} (h : l.length < n) :
    combinations n l = [] := by
  have := length_combinations n l
  rw [Nat.choose_eq_zero_of_lt h] at this
  exact List.length_eq_zero.mp this

theorem combinations_length_self (l : List Nat) :
    combinations l.length l = [l] := by
  induction l with
  | nil => rfl
  | cons x xs ih =>
    simp only [List.length_cons, combinations, ih,
      combinations_eq_nil (Nat.lt_succ_self xs.length), List.map_singleton,
      List.append_nil]

/-! ### Lemmas about microstate construction -/

theorem microstateFold_eq (states : List (Int × Int)) (combo : List Nat) :
    ∀ (lab : Label) (a b : Int),
      microstateFold states combo (lab, a, b) =
        (lab ++ combo.map (· + 1),
         a + (combo.map fun i => (states.getD i (0, 0)).1).sum,
         b + (combo.map fun i => (states.getD i (0, 0)).2).sum) := by
  induction combo with
  | nil => intro lab a b; simp [microstateFold]
  | cons x rest ih =>
    intro lab a b
    simp only [microstateFold, ih, List.map_cons, List.sum_cons,
      List.append_assoc, List.singleton_append, add_assoc]

theorem microstate_eq (states : List (Int × Int)) (combo : List Nat) :
    microstate states combo =
      (combo.map (· + 1),
       (combo.map fun i => (states.getD i (0, 0)).1).sum,
       (combo.map fun i => (states.getD i (0, 0)).2).sum) := by
  rw [microstate, microstateFold_eq]
  rw [List.nil_append, zero_add, zero_add]

theorem map_getD_length (l : List α) (d : α) :
    (List.range l.length).map (fun i => l.getD i d) = l := by
  induction l with
  | nil => simp
  | cons x xs ih =>
    rw [List.length_cons, List.range_succ_eq_map, List.map_cons,
      List.map_map]
    simp only [List.getD_cons_zero, List.cons.injEq, true_and]
    calc (List.range xs.length).map ((fun i => (x :: xs).getD i d) ∘ Nat.succ)
        = (List.range xs.length).map (fun i => xs.getD i d) := by
          apply List.map_congr_left; intro i _; rfl
      _ = xs := ih

/-! ### Lemmas about the single-electron state list -/

theorem cartesianProduct_length (xs : List α) (ys : List β) :
    (cartesianProduct xs ys).length = xs.length * ys.length := by
  induction xs with
  | nil => simp [cartesianProduct]
  | cons x xs ih =>
    simp only [cartesianProduct, List.flatMap_cons] at ih ⊢
    simp [ih, Nat.succ_mul, Nat.add_comm]

theorem singleStates_length (L : Nat) :
    (singleStates L).length = 2 * (2 * L + 1) := by
  rw [singleStates, cartesianProduct_length]
  simp only [SubLevelType.mls, List.length_map, List.length_range, SPINS,
    List.length_cons, List.length_nil]
  omega

theorem cartesianProduct_cons (x : α) (xs : List α) (ys : List β) :
    cartesianProduct (x :: xs) ys =
      ys.map (fun y => (x, y)) ++ cartesianProduct xs ys := by
  simp [cartesianProduct]

theorem cartesianProduct_spins_sum_fst (xs : List Int) :
    ((cartesianProduct xs SPINS).map Prod.fst).sum = 2 * xs.sum := by
  induction xs with
  | nil => simp [cartesianProduct]
  | cons x xs ih =>
    rw [cartesianProduct_cons, List.map_append, List.sum_append, ih]
    simp only [SPINS, List.map_cons, List.map_nil, List.sum_cons,
      List.sum_nil, List.sum_cons]
    ring

theorem cartesianProduct_spins_sum_snd (xs : List Int) :
    ((cartesianProduct xs SPINS).map Prod.snd).sum = 0 := by
  induction xs with
  | nil => simp [cartesianProduct]
  | cons x xs ih =>
    rw [cartesianProduct_cons, List.map_append, List.sum_append, ih]
    simp [SPINS]

theorem sum_range_cast (n : Nat) :
    ((List.range n).map fun i : Nat => (i : Int)).sum * 2 = n * (n - 1) := by
  induction n with
  | zero => simp
  | succ n ih =>
    rw [List.sum_range_succ]
    push_cast
    push_cast at ih
    nlinarith [ih]

theorem mls_sum (L : Nat) : (SubLevelType.mls ⟨L⟩).sum = 0 := by
  have key : ∀ (l : List Nat) (c : Int),
      (l.map fun i : Nat => (i : Int) - c).sum =
        (l.map fun i : Nat => (i : Int)).sum - l.length * c := by
    intro l c
    induction l with
    | nil => simp
    | cons x xs ih =>
      simp only [List.map_cons, List.sum_cons, List.length_cons, ih]
      push_cast
      ring
  have h2 := sum_range_cast (2 * L + 1)
  rw [SubLevelType.mls, key]
  simp only [List.length_range]
  push_cast
  push_cast at h2
  linarith [h2]

theorem singleStates_sum_fst (L : Nat) :
    ((singleStates L).map Prod.fst).sum = 0 := by
  rw [singleStates, cartesianProduct_spins_sum_fst, mls_sum, mul_zero]

theorem singleStates_sum_snd (L : Nat) :
    ((singleStates L).map Prod.snd).sum = 0 :=
  cartesianProduct_spins_sum_snd _

/-! ### Capacity and construction (claims C7 and C4) -/

theorem maxElectrons_eq (L : Nat) :
    SubLevelType.maxElectrons ⟨L⟩ =
      if L ≤ 63 then some (2 * (2 * L + 1)) else none := by
  simp only [SubLevelType.maxElectrons, checkedMulU8, checkedAddU8]
  by_cases h : L ≤ 63
  · rw [if_pos h, if_pos (show L * 2 ≤ 255 by omega)]
    simp only [Option.some_bind]
    rw [if_pos (show L * 2 + 1 ≤ 255 by omega)]
    simp only [Option.some_bind]
    rw [if_pos (show (L * 2 + 1) * 2 ≤ 255 by omega)]
    congr 1
    ring
  · rw [if_neg h]
    by_cases h2 : L * 2 ≤ 255
    · rw [if_pos h2]
      simp only [Option.some_bind]
      rw [if_pos (show L * 2 + 1 ≤ 255 by omega)]
      simp only [Option.some_bind]
      rw [if_neg (show ¬(L * 2 + 1) * 2 ≤ 255 by omega)]
    · rw [if_neg h2]
      rfl

/-- C7: `max_electrons` computes exactly `2*(2L+1)` for every `L` within
the checked `u8` range (`L ≤ 63`, which covers every practical `L ≤ 20`)
and hits the overflow panic exactly when `L` is larger. -/
theorem claim7 (L : Nat) :
    SubLevelType.maxElectrons ⟨L⟩ =
        (if L ≤ 63 then some (2 * (2 * L + 1)) else none) ∧
      (L ≤ 20 → SubLevelType.maxElectrons ⟨L⟩ = some (2 * (2 * L + 1))) := by
  refine ⟨maxElectrons_eq L, fun h20 => ?_⟩
  rw [maxElectrons_eq, if_pos (by omega)]

/-- Witness for C7 at `L = 5`. -/
theorem claim7_witness :
    SubLevelType.maxElectrons ⟨5⟩ = some (2 * (2 * 5 + 1)) :=
  (claim7 5).2 (by decide)

/-- C4: `SubLevel::new` succeeds with exactly the given fields iff
`n ≤ 2*(2L+1)`, fails with the single `ToMuch` error otherwise, the
error message contains the computed capacity, and `ToMuch` is the only
error form. -/
theorem claim4 (L n : Nat) (h : L ≤ 63) :
    (SubLevel.new ⟨L⟩ n = some (.ok ⟨⟨L⟩, n⟩) ↔ n ≤ 2 * (2 * L + 1)) ∧
      (2 * (2 * L + 1) < n →
        SubLevel.new ⟨L⟩ n = some (.error (.ToMuch ⟨L⟩))) ∧
      (∃ pre post, LevelError.message (.ToMuch ⟨L⟩) =
        some ((pre ++ toString (2 * (2 * L + 1))) ++ post)) ∧
      (∀ e : LevelError, ∃ t, e = .ToMuch t) := by
  have hmax := maxElectrons_eq L
  rw [if_pos h] at hmax
  refine ⟨?_, ?_, ?_, fun e => ?_⟩
  · rw [SubLevel.new, hmax, Option.map_some']
    by_cases hn : n ≤ 2 * (2 * L + 1)
    · simp [hn]
    · simp [hn]
  · intro hlt
    rw [SubLevel.new, hmax, Option.map_some', if_neg (by omega)]
  · refine ⟨"There could be at most ",
      " electrons on the " ++ SubLevelType.name ⟨L⟩ ++ " sublevel", ?_⟩
    rw [LevelError.message, hmax, Option.map_some']
    congr 1
    simp [String.append_assoc]
  · cases e with
    | ToMuch t => exact ⟨t, rfl⟩

/-- Witness for C4 at `L = 1`, `n = 7` (the spec error fixture). -/
theorem claim4_witness :
    SubLevel.new ⟨1⟩ 7 = some (.error (.ToMuch ⟨1⟩)) :=
  (claim4 1 7 (by decide)).2.1 (by decide)

/-! ### The microstate enumerator (claims C5 and C10) -/

theorem checkedFold_of_bound (states : List (Int × Int)) (combo : List Nat) :
    ∀ (lab : Label) (a b : Int),
      a.natAbs + ((combo.map fun i => ((states.getD i (0, 0)).1).natAbs).sum) ≤ 127 →
      b.natAbs + ((combo.map fun i => ((states.getD i (0, 0)).2).natAbs).sum) ≤ 127 →
      microstateChecked states combo (lab, a, b) =
        some (microstateFold states combo (lab, a, b)) := by
  induction combo with
  | nil => intro lab a b _ _; rfl
  | cons x rest ih =>
    intro lab a b h1 h2
    rw [List.map_cons, List.sum_cons] at h1 h2
    have t1 := Int.natAbs_add_le a (states.getD x (0, 0)).1
    have t2 := Int.natAbs_add_le b (states.getD x (0, 0)).2
    simp only [microstateChecked, microstateFold, checkedI8]
    rw [if_pos (by omega)]
    simp only [Option.some_bind]
    rw [if_pos (by omega)]
    simp only [Option.some_bind]
    exact ih _ _ _ (by omega) (by omega)

theorem range_map_getD_fst (L : Nat) :
    (List.range (singleStates L).length).map
        (fun i => ((singleStates L).getD i (0, 0)).1.natAbs) =
      (singleStates L).map fun p => p.1.natAbs := by
  have h : (fun i => ((singleStates L).getD i (0, 0)).1.natAbs) =
      (fun p : Int × Int => p.1.natAbs) ∘
        fun i => (singleStates L).getD i (0, 0) := rfl
  rw [h, ← List.map_map, map_getD_length]

theorem range_map_getD_snd (L : Nat) :
    (List.range (singleStates L).length).map
        (fun i => ((singleStates L).getD i (0, 0)).2.natAbs) =
      (singleStates L).map fun p => p.2.natAbs := by
  have h : (fun i => ((singleStates L).getD i (0, 0)).2.natAbs) =
      (fun p : Int × Int => p.2.natAbs) ∘
        fun i => (singleStates L).getD i (0, 0) := rfl
  rw [h, ← List.map_map, map_getD_length]

theorem singleStates_natAbs_bounds (L : Nat) (hL : L ≤ 6) :
    ((singleStates L).map fun p => p.1.natAbs).sum ≤ 84 ∧
      ((singleStates L).map fun p => p.2.natAbs).sum ≤ 26 := by
  interval_cases L <;> exact ⟨by decide, by decide⟩

theorem combo_natAbs_bounds (L : Nat) (hL : L ≤ 6) (combo : List Nat)
    (hsub : List.Sublist combo (List.range (singleStates L).length)) :
    (combo.map fun i => ((singleStates L).getD i (0, 0)).1.natAbs).sum ≤ 84 ∧
      (combo.map fun i => ((singleStates L).getD i (0, 0)).2.natAbs).sum ≤ 26 := by
  have hb := singleStates_natAbs_bounds L hL
  constructor
  · calc (combo.map fun i => ((singleStates L).getD i (0, 0)).1.natAbs).sum
        ≤ ((List.range (singleStates L).length).map
            fun i => ((singleStates L).getD i (0, 0)).1.natAbs).sum :=
          List.Sublist.sum_le_sum (hsub.map _) fun a _ => Nat.zero_le a
      _ ≤ 84 := by rw [range_map_getD_fst]; exact hb.1
  · calc (combo.map fun i => ((singleStates L).getD i (0, 0)).2.natAbs).sum
        ≤ ((List.range (singleStates L).length).map
            fun i => ((singleStates L).getD i (0, 0)).2.natAbs).sum :=
          List.Sublist.sum_le_sum (hsub.map _) fun a _ => Nat.zero_le a
      _ ≤ 26 := by rw [range_map_getD_snd]; exact hb.2

/-- C10: for every subshell with `L ≤ 6` and every generated
combination, the `i8` accumulation of the microstate totals never
overflows: the checked fold returns exactly the mathematical sums. -/
theorem claim10 (L n : Nat) (combo : List Nat) (hL : L ≤ 6)
    (hmem : combo ∈ combinations n (List.range (singleStates L).length)) :
    microstateChecked (singleStates L) combo ([], 0, 0) =
      some (microstate (singleStates L) combo) := by
  obtain ⟨hsub, _⟩ := mem_combinations.mp hmem
  have hb := combo_natAbs_bounds L hL combo hsub
  rw [microstate]
  refine checkedFold_of_bound _ combo [] 0 0 ?_ ?_
  · have := hb.1
    simp only [Int.natAbs_zero, Nat.zero_add]
    omega
  · have := hb.2
    simp only [Int.natAbs_zero, Nat.zero_add]
    omega

/-- Witness for C10 at `L = 1`, `n = 2`, combination `[0, 1]`. -/
theorem claim10_witness :
    microstateChecked (singleStates 1) [0, 1] ([], 0, 0) =
      some (microstate (singleStates 1) [0, 1]) :=
  claim10 1 2 [0, 1] (by decide) (by decide)

/-! ### Boundary behaviour (claim C6) -/

theorem combinations_zero (l : List Nat) : combinations 0 l = [[]] := by
  simp [combinations]

theorem range_getD_states (L : Nat) :
    (List.range (2 * (2 * L + 1))).map
        (fun i => (singleStates L).getD i (0, 0)) = singleStates L := by
  have h := map_getD_length (singleStates L) (0, 0)
  rwa [singleStates_length] at h

theorem microstate_full (L : Nat) :
    microstate (singleStates L) (List.range (2 * (2 * L + 1))) =
      ((List.range (2 * (2 * L + 1))).map (· + 1), 0, 0) := by
  rw [microstate_eq]
  have h1 : (List.range (2 * (2 * L + 1))).map
      (fun i => ((singleStates L).getD i (0, 0)).1) =
      (singleStates L).map Prod.fst := by
    have hc : (fun i => ((singleStates L).getD i (0, 0)).1) =
        Prod.fst ∘ fun i => (singleStates L).getD i (0, 0) := rfl
    rw [hc, ← List.map_map, range_getD_states]
  have h2 : (List.range (2 * (2 * L + 1))).map
      (fun i => ((singleStates L).getD i (0, 0)).2) =
      (singleStates L).map Prod.snd := by
    have hc : (fun i => ((singleStates L).getD i (0, 0)).2) =
        Prod.snd ∘ fun i => (singleStates L).getD i (0, 0) := rfl
    rw [hc, ← List.map_map, range_getD_states]
  rw [h1, h2, singleStates_sum_fst, singleStates_sum_snd]

/-- C6 counterexample: at `L = 11`, `n = capacity(L) = 46`, the
enumerator generates exactly one combination (the full shell, state
indices in ascending order), and the source's `i8` accumulation of its
`ML` total overflows while summing it (the ascending-order partial sums
reach `-L*(L+1) = -132 < -128`): under the overflow semantics modelled
by `checkedI8`, the program panics on this boundary input instead of
returning `¹S`, so the boundary property fails for `L ≥ 11` even though
`L = 11` is well inside the representable range. -/
theorem claim6_counterexample :
    combinations (2 * (2 * 11 + 1)) (List.range (singleStates 11).length) =
      [List.range (2 * (2 * 11 + 1))] ∧
      microstateChecked (singleStates 11)
        (List.range (2 * (2 * 11 + 1))) ([], 0, 0) = none := by
  constructor
  · rw [singleStates_length]
    have h := combinations_length_self (List.range (2 * (2 * 11 + 1)))
    rwa [List.length_range] at h
  · decide

/-- C6 (amended): the `n = 0` boundary produces exactly the single term
`¹S` for every representable `L`; the `n = capacity(L)` boundary does so
for `L ≤ 10`, the range on which the `i8` accumulation of the unique
full-shell microstate provably stays in range (third conjunct), and
fails by overflow panic beyond it (see the counterexample at
`L = 11`). -/
theorem claim6 (L : Nat) :
    (L ≤ 63 → eeTermsResult L 0 = some ([⟨0, 1⟩], [⟨0, 1⟩])) ∧
      (L ≤ 10 →
        eeTermsResult L (2 * (2 * L + 1)) = some ([⟨0, 1⟩], [⟨0, 1⟩]) ∧
          microstateChecked (singleStates L)
              (List.range (2 * (2 * L + 1))) ([], 0, 0) =
            some (microstate (singleStates L)
              (List.range (2 * (2 * L + 1))))) := by
  constructor
  · intro _
    have h0 : levelStates L 0 = [([], 0, 0)] := by
      rw [levelStates, combinations_zero]
      rfl
    simp only [eeTermsResult, eeTermsFull, h0]
    rfl
  · intro hL
    constructor
    · have hcombo : combinations (2 * (2 * L + 1))
          (List.range (2 * (2 * L + 1))) =
          [List.range (2 * (2 * L + 1))] := by
        have h := combinations_length_self (List.range (2 * (2 * L + 1)))
        rwa [List.length_range] at h
      have hfull : levelStates L (2 * (2 * L + 1)) =
          [((List.range (2 * (2 * L + 1))).map (· + 1), 0, 0)] := by
        rw [levelStates, singleStates_length, hcombo, List.map_cons,
          List.map_nil, microstate_full]
      simp only [eeTermsResult, eeTermsFull, hfull]
      rfl
    · interval_cases L <;> decide

/-- Witness boundary instance for C6 at `L = 2` (capacity `10`). -/
theorem claim6_witness :
    eeTermsResult 2 0 = some ([⟨0, 1⟩], [⟨0, 1⟩]) ∧
      eeTermsResult 2 (2 * (2 * 2 + 1)) = some ([⟨0, 1⟩], [⟨0, 1⟩]) :=
  ⟨(claim6 2).1 (by decide), ((claim6 2).2 (by decide)).1⟩

/-! ### Size bookkeeping for the extraction loop -/

theorem alRemove_measure {α : Type} (μ : α → Nat) (k : Int)
    (l : List (Int × α)) (v : α) (h : alGet k l = some v) :
    ((alRemove k l).map fun p => μ p.2).sum + μ v =
      (l.map fun p => μ p.2).sum := by
  induction l with
  | nil => cases h
  | cons hd tl ih =>
    obtain ⟨k2, w⟩ := hd
    simp only [alGet] at h
    by_cases hk : k = k2
    · rw [if_pos hk] at h
      have hw : w = v := Option.some.inj h
      simp only [alRemove, if_pos hk, List.map_cons, List.sum_cons, hw]
      omega
    · rw [if_neg hk] at h
      have := ih h
      simp only [alRemove, if_neg hk, List.map_cons, List.sum_cons]
      omega

theorem alSet_measure {α : Type} (μ : α → Nat) (k : Int) (nv : α)
    (l : List (Int × α)) (v : α) (h : alGet k l = some v) :
    ((alSet k nv l).map fun p => μ p.2).sum + μ v =
      (l.map fun p => μ p.2).sum + μ nv := by
  induction l with
  | nil => cases h
  | cons hd tl ih =>
    obtain ⟨k2, w⟩ := hd
    simp only [alGet] at h
    by_cases hk : k = k2
    · rw [if_pos hk] at h
      have hw : w = v := Option.some.inj h
      simp only [alSet, if_pos hk, List.map_cons, List.sum_cons, hw]
      omega
    · rw [if_neg hk] at h
      have := ih h
      simp only [alSet, if_neg hk, List.map_cons, List.sum_cons]
      omega

theorem popBucket_size {row : Row} {s : Int} {lbl : Label} {row2 : Row}
    (h : popBucket row s = some (lbl, row2)) : rowSize row2 + 1 = rowSize row := by
  rw [popBucket] at h
  cases hget : alGet s row with
  | none => rw [hget] at h; cases h
  | some b =>
    rw [hget] at h
    simp only [Option.some_bind] at h
    cases hlast : b.getLast? with
    | none => rw [hlast] at h; cases h
    | some lbl2 =>
      rw [hlast] at h
      simp only [Option.some.injEq, Prod.mk.injEq] at h
      obtain ⟨-, hrow⟩ := h
      have hb : b ≠ [] := by
        intro hb
        rw [hb] at hlast
        cases hlast
      have hlen : b.dropLast.length + 1 = b.length := by
        have := List.length_pos.mpr hb
        rw [List.length_dropLast]
        omega
      by_cases hdrop : b.dropLast = []
      · rw [if_pos hdrop] at hrow
        have hrm : rowSize (alRemove s row) + b.length = rowSize row :=
          alRemove_measure List.length s row b hget
        have hone : b.length = 1 := by
          rw [← hlen, hdrop]
          rfl
        rw [← hrow]
        omega
      · rw [if_neg hdrop] at hrow
        have hst : rowSize (alSet s b.dropLast row) + b.length =
            rowSize row + b.dropLast.length :=
          alSet_measure List.length s b.dropLast row b hget
        rw [← hrow]
        omega

theorem popRow_size {sl : List Int} : ∀ {row : Row} {ls : List Label} {row2 : Row},
    popRow row sl = some (ls, row2) →
    ls.length = sl.length ∧ rowSize row2 + sl.length = rowSize row := by
  induction sl with
  | nil =>
    intro row ls row2 h
    rw [popRow] at h
    simp only [Option.some.injEq, Prod.mk.injEq] at h
    obtain ⟨rfl, rfl⟩ := h
    exact ⟨rfl, by simp⟩
  | cons s rest ih =>
    intro row ls row2 h
    rw [popRow] at h
    cases hpb : popBucket row s with
    | none => rw [hpb] at h; cases h
    | some pr =>
      rw [hpb] at h
      simp only [Option.some_bind] at h
      cases hpr : popRow pr.2 rest with
      | none => rw [hpr] at h; cases h
      | some qr =>
        rw [hpr] at h
        simp only [Option.some_bind, Option.some.injEq, Prod.mk.injEq] at h
        obtain ⟨rfl, rfl⟩ := h
        have h1 := popBucket_size hpb
        have h2 := ih hpr
        constructor
        · simp [h2.1]
        · simp only [List.length_cons]
          omega

theorem popTable_size {sl : List Int} :
    ∀ {mlList : List Int} {t : Table} {ls : List Label} {t2 : Table},
      popTable sl t mlList = some (ls, t2) →
      ls.length = mlList.length * sl.length ∧
        tableSize t2 + ls.length = tableSize t := by
  intro mlList
  induction mlList with
  | nil =>
    intro t ls t2 h
    rw [popTable] at h
    simp only [Option.some.injEq, Prod.mk.injEq] at h
    obtain ⟨rfl, rfl⟩ := h
    exact ⟨by simp, by simp⟩
  | cons ml rest ih =>
    intro t ls t2 h
    rw [popTable] at h
    cases hget : alGet ml t with
    | none => rw [hget] at h; cases h
    | some row =>
      rw [hget] at h
      simp only [Option.some_bind] at h
      cases hpr : popRow row sl with
      | none => rw [hpr] at h; cases h
      | some pr =>
        rw [hpr] at h
        simp only [Option.some_bind] at h
        cases hq : popTable sl
            (if pr.2 = [] then alRemove ml t else alSet ml pr.2 t) rest with
        | none => rw [hq] at h; cases h
        | some qr =>
          rw [hq] at h
          simp only [Option.some_bind, Option.some.injEq, Prod.mk.injEq] at h
          obtain ⟨rfl, rfl⟩ := h
          have hrow := popRow_size hpr
          have hrec := ih hq
          have hTN : tableSize
              (if pr.2 = [] then alRemove ml t else alSet ml pr.2 t) +
                rowSize row = tableSize t + rowSize pr.2 := by
            by_cases hemp : pr.2 = []
            · rw [if_pos hemp, hemp]
              have hrm : tableSize (alRemove ml t) + rowSize row =
                  tableSize t :=
                alRemove_measure rowSize ml t row hget
              have hz : rowSize ([] : Row) = 0 := rfl
              omega
            · rw [if_neg hemp]
              exact alSet_measure rowSize ml pr.2 t row hget
          constructor
          · rw [List.length_append, hrow.1, hrec.1, List.length_cons,
              Nat.succ_mul]
            omega
          · rw [List.length_append, hrow.1, hrec.1]
            have h3 := hrec.2
            rw [hrec.1] at h3
            omega

theorem extractStep_size {t : Table} {term : TermType} {lbls : List Label}
    {t2 : Table} (h : extractStep t = some (term, lbls, t2)) :
    lbls.length = termWeight term ∧
      tableSize t2 + termWeight term = tableSize t := by
  rw [extractStep] at h
  cases hlast : t.getLast? with
  | none => rw [hlast] at h; cases h
  | some lkv =>
    rw [hlast] at h
    simp only [Option.some_bind] at h
    cases hget : alGet lkv.1 t with
    | none => rw [hget] at h; cases h
    | some row =>
      rw [hget] at h
      simp only [Option.some_bind] at h
      cases hrl : row.getLast? with
      | none => rw [hrl] at h; cases h
      | some skv =>
        rw [hrl] at h
        simp only [Option.some_bind] at h
        by_cases h1 : 0 ≤ lkv.1
        · rw [if_pos h1] at h
          simp only [Option.some_bind] at h
          by_cases h2 : 0 ≤ skv.1 + 1
          · rw [if_pos h2] at h
            simp only [Option.some_bind] at h
            cases hpt : popTable (msRange skv.1) t
                (intRange (-lkv.1) lkv.1) with
            | none => rw [hpt] at h; cases h
            | some pr =>
              rw [hpt] at h
              simp only [Option.some_bind, Option.some.injEq,
                Prod.mk.injEq] at h
              obtain ⟨rfl, rfl, rfl⟩ := h
              have hsz := popTable_size hpt
              have hml : (intRange (-lkv.1) lkv.1).length =
                  2 * lkv.1.toNat + 1 := by
                rw [intRange, List.length_map, List.length_range]
                omega
              have hms : (msRange skv.1).length = (skv.1 + 1).toNat := by
                rw [msRange, List.length_map, List.length_range]
              have hwt : termWeight ⟨lkv.1.toNat, (skv.1 + 1).toNat⟩ =
                  (2 * lkv.1.toNat + 1) * (skv.1 + 1).toNat := rfl
              refine ⟨?_, ?_⟩
              · rw [hsz.1, hml, hms, hwt]
              · rw [hwt, ← hml, ← hms, ← hsz.1]
                exact hsz.2
          · rw [if_neg h2] at h
            cases h
        · rw [if_neg h1] at h
          cases h

/-! ### The result map (claims C8 and C9) -/

theorem mem_keys_insertTerm {acc : List (TermType × List Label)}
    {term : TermType} {lbls : List Label} (x : TermType) :
    x ∈ (insertTerm term lbls acc).map Prod.fst ↔
      x ∈ acc.map Prod.fst ∨ x = term := by
  induction acc with
  | nil => simp [insertTerm]
  | cons hd tl ih =>
    obtain ⟨tt, v⟩ := hd
    rw [insertTerm]
    by_cases hx : tt = term
    · rw [if_pos hx]
      subst hx
      simp only [List.map_cons, List.mem_cons]
      tauto
    · rw [if_neg hx]
      simp only [List.map_cons, List.mem_cons, ih]
      tauto

theorem keys_insertTerm_nodup {acc : List (TermType × List Label)}
    {term : TermType} {lbls : List Label}
    (h : (acc.map Prod.fst).Nodup) :
    ((insertTerm term lbls acc).map Prod.fst).Nodup := by
  induction acc with
  | nil => simp [insertTerm]
  | cons hd tl ih =>
    obtain ⟨tt, v⟩ := hd
    rw [List.map_cons, List.nodup_cons] at h
    by_cases hx : tt = term
    · simp only [insertTerm, if_pos hx, List.map_cons, List.nodup_cons]
      exact ⟨h.1, h.2⟩
    · simp only [insertTerm, if_neg hx, List.map_cons, List.nodup_cons]
      refine ⟨?_, ih h.2⟩
      rw [mem_keys_insertTerm]
      rintro (hmem | rfl)
      · exact h.1 hmem
      · exact hx rfl

theorem extractLoop_props :
    ∀ (fuel : Nat) (t : Table) (acc : List (TermType × List Label))
      (log : List TermType)
      (res : List (TermType × List Label) × List TermType),
      extractLoop fuel t acc log = some res →
      ∃ em, res.2 = log ++ em ∧
        (∀ x, x ∈ res.1.map Prod.fst ↔ x ∈ acc.map Prod.fst ∨ x ∈ em) ∧
        ((acc.map Prod.fst).Nodup → (res.1.map Prod.fst).Nodup) ∧
        (em.map termWeight).sum = tableSize t := by
  intro fuel
  induction fuel with
  | zero =>
    intro t acc log res h
    rw [extractLoop] at h
    cases hlast : t.getLast? with
    | none =>
      rw [hlast] at h
      simp only [Option.some.injEq] at h
      subst h
      have ht : t = [] := List.getLast?_eq_none_iff.mp hlast
      subst ht
      exact ⟨[], by simp, fun x => by simp, fun hn => hn, by simp [tableSize]⟩
    | some p =>
      rw [hlast] at h
      cases h
  | succ fuel ih =>
    intro t acc log res h
    rw [extractLoop] at h
    cases hlast : t.getLast? with
    | none =>
      rw [hlast] at h
      simp only [Option.some.injEq] at h
      subst h
      have ht : t = [] := List.getLast?_eq_none_iff.mp hlast
      subst ht
      exact ⟨[], by simp, fun x => by simp, fun hn => hn, by simp [tableSize]⟩
    | some p =>
      rw [hlast] at h
      cases hstep : extractStep t with
      | none =>
        rw [hstep] at h
        cases h
      | some trip =>
        obtain ⟨term, lbls, t2⟩ := trip
        rw [hstep] at h
        obtain ⟨em, hlog, hmem, hnodup, hsum⟩ := ih t2 _ _ res h
        have hsize := extractStep_size hstep
        refine ⟨term :: em, ?_, ?_, ?_, ?_⟩
        · rw [hlog, List.append_assoc, List.singleton_append]
        · intro x
          rw [hmem x, mem_keys_insertTerm, List.mem_cons]
          tauto
        · intro hn
          exact hnodup (keys_insertTerm_nodup hn)
        · rw [List.map_cons, List.sum_cons, hsum]
          omega

/-- C8: whatever the input, the returned term list never contains a
duplicate `(momentum, multiplet)` pair: a term emitted by several peeling
iterations appears exactly once among the result keys, which consist
precisely of the emitted terms. -/
theorem claim8 (L n : Nat) (keys log : List TermType)
    (h : eeTermsResult L n = some (keys, log)) :
    keys.Nodup ∧ ∀ x, x ∈ keys ↔ x ∈ log := by
  rw [eeTermsResult] at h
  cases hf : eeTermsFull L n with
  | none =>
    rw [hf] at h
    cases h
  | some p =>
    rw [hf] at h
    simp only [Option.map_some', Option.some.injEq, Prod.mk.injEq] at h
    obtain ⟨hk, hl⟩ := h
    rw [eeTermsFull] at hf
    obtain ⟨em, hlog, hmem, hnodup, -⟩ := extractLoop_props _ _ _ _ _ hf
    rw [List.nil_append] at hlog
    subst hk
    subst hl
    refine ⟨hnodup (by simp), fun x => ?_⟩
    rw [hmem x, hlog]
    simp

/-- Witness for C8 at `L = 1`, `n = 2`: the three keys are distinct and
coincide with the emitted terms. -/
theorem claim8_witness :
    (([⟨2, 1⟩, ⟨1, 3⟩, ⟨0, 1⟩] : List TermType)).Nodup ∧
      ∀ x : TermType, x ∈ ([⟨2, 1⟩, ⟨1, 3⟩, ⟨0, 1⟩] : List TermType) ↔
        x ∈ ([⟨2, 1⟩, ⟨1, 3⟩, ⟨0, 1⟩] : List TermType) :=
  claim8 1 2 _ _ (by decide)

/-- C9 counterexample: the code returns the `HashMap` keys in an
unspecified, per-run order, so two runs on the same valid input `(1, 2)`
can observe different vectors; the claim that the vectors are identical
(same order) is false. -/
theorem claim9_counterexample :
    IsRunResult 1 2 [⟨2, 1⟩, ⟨1, 3⟩, ⟨0, 1⟩] ∧
      IsRunResult 1 2 [⟨1, 3⟩, ⟨2, 1⟩, ⟨0, 1⟩] ∧
      ([⟨2, 1⟩, ⟨1, 3⟩, ⟨0, 1⟩] : List TermType) ≠
        [⟨1, 3⟩, ⟨2, 1⟩, ⟨0, 1⟩] :=
  ⟨⟨[⟨2, 1⟩, ⟨1, 3⟩, ⟨0, 1⟩], [⟨2, 1⟩, ⟨1, 3⟩, ⟨0, 1⟩], by decide, by decide⟩,
   ⟨[⟨2, 1⟩, ⟨1, 3⟩, ⟨0, 1⟩], [⟨2, 1⟩, ⟨1, 3⟩, ⟨0, 1⟩], by decide, by decide⟩,
   by decide⟩

/-- C9 (amended): the computation is deterministic up to the unspecified
`HashMap` key order: any two observable results of runs on equal valid
input are permutations of each other (the same terms, each exactly
once), and the underlying enumeration and extraction pipeline is a pure
function of `(L, n)`. -/
theorem claim9_amended (L n : Nat) (out1 out2 : List TermType)
    (h1 : IsRunResult L n out1) (h2 : IsRunResult L n out2) :
    out1.Perm out2 := by
  obtain ⟨k1, g1, hr1, hp1⟩ := h1
  obtain ⟨k2, g2, hr2, hp2⟩ := h2
  rw [hr1] at hr2
  simp only [Option.some.injEq, Prod.mk.injEq] at hr2
  obtain ⟨hk, -⟩ := hr2
  subst hk
  exact hp1.trans hp2.symm

/-- Witness for the amended C9 at `(1, 2)`. -/
theorem claim9_witness :
    ([⟨2, 1⟩, ⟨1, 3⟩, ⟨0, 1⟩] : List TermType).Perm
      [⟨0, 1⟩, ⟨2, 1⟩, ⟨1, 3⟩] :=
  claim9_amended 1 2 _ _
    ⟨[⟨2, 1⟩, ⟨1, 3⟩, ⟨0, 1⟩], [⟨2, 1⟩, ⟨1, 3⟩, ⟨0, 1⟩], by decide, by decide⟩
    ⟨[⟨2, 1⟩, ⟨1, 3⟩, ⟨0, 1⟩], [⟨2, 1⟩, ⟨1, 3⟩, ⟨0, 1⟩], by decide, by decide⟩

/-- C3: the three spec fixtures.  `ee_terms` returns (as a set) exactly
`{¹S, ¹D, ³P}` for `p²`, `{²P, ²D, ⁴S}` for `p³` and
`{¹S, ¹D, ¹G, ³P, ³F}` for `d²`. -/
theorem claim3 :
    (∃ keys log, eeTermsResult 1 2 = some (keys, log) ∧
      keys.Perm [⟨0, 1⟩, ⟨2, 1⟩, ⟨1, 3⟩]) ∧
    (∃ keys log, eeTermsResult 1 3 = some (keys, log) ∧
      keys.Perm [⟨1, 2⟩, ⟨2, 2⟩, ⟨0, 4⟩]) ∧
    (∃ keys log, eeTermsResult 2 2 = some (keys, log) ∧
      keys.Perm [⟨0, 1⟩, ⟨2, 1⟩, ⟨4, 1⟩, ⟨1, 3⟩, ⟨3, 3⟩]) :=
  ⟨⟨[⟨2, 1⟩, ⟨1, 3⟩, ⟨0, 1⟩], [⟨2, 1⟩, ⟨1, 3⟩, ⟨0, 1⟩],
      by decide, by decide⟩,
   ⟨[⟨2, 2⟩, ⟨1, 2⟩, ⟨0, 4⟩], [⟨2, 2⟩, ⟨1, 2⟩, ⟨0, 4⟩],
      by decide, by decide⟩,
   ⟨[⟨4, 1⟩, ⟨3, 3⟩, ⟨2, 1⟩, ⟨1, 3⟩, ⟨0, 1⟩],
      [⟨4, 1⟩, ⟨3, 3⟩, ⟨2, 1⟩, ⟨1, 3⟩, ⟨0, 1⟩],
      by decide, by decide⟩⟩

/-! ### Conservation law support (towards claims C1 and C2)

The two theorems below settle the parts of the termination obligation
that do not depend on the rectangle-nonemptiness invariant: whenever the
extraction loop completes (which it does exactly when it empties the
table without hitting a panic), the total number of removed labels --
the sum of `(2L+1)*(2S_true+1)` over the emitted term sequence -- equals
`C(capacity(L), n)` exactly; and it does complete for every `n` on the
subshells small enough to check by evaluation. -/

theorem rowSize_cons (k : Int) (b : Bucket) (tl : Row) :
    rowSize ((k, b) :: tl) = b.length + rowSize tl := rfl

theorem tableSize_cons (k : Int) (row : Row) (tl : Table) :
    tableSize ((k, row) :: tl) = rowSize row + tableSize tl := rfl

theorem rowInsert_size (ms : Int) (name : Label) (row : Row) :
    rowSize (rowInsert ms name row) = rowSize row + 1 := by
  induction row with
  | nil => rfl
  | cons hd tl ih =>
    obtain ⟨k, b⟩ := hd
    rw [rowInsert]
    by_cases h1 : ms < k
    · rw [if_pos h1]
      simp only [rowSize_cons, List.length_singleton]
      omega
    · rw [if_neg h1]
      by_cases h2 : ms = k
      · rw [if_pos h2]
        simp only [rowSize_cons, List.length_append, List.length_singleton]
        omega
      · rw [if_neg h2]
        simp only [rowSize_cons, ih]
        omega

theorem tableInsert_size (ml ms : Int) (name : Label) (t : Table) :
    tableSize (tableInsert ml ms name t) = tableSize t + 1 := by
  induction t with
  | nil =>
    rw [tableInsert, tableSize_cons, rowInsert_size]
    rfl
  | cons hd tl ih =>
    obtain ⟨k, row⟩ := hd
    rw [tableInsert]
    by_cases h1 : ml < k
    · rw [if_pos h1]
      simp only [tableSize_cons, rowInsert_size]
      have hz : rowSize ([] : Row) = 0 := rfl
      omega
    · rw [if_neg h1]
      by_cases h2 : ml = k
      · rw [if_pos h2]
        simp only [tableSize_cons, rowInsert_size]
        omega
      · rw [if_neg h2]
        simp only [tableSize_cons, ih]
        omega

theorem aggregate_size (sts : List (Label × Int × Int)) :
    tableSize (aggregate sts) = sts.length := by
  suffices h : ∀ t0 : Table,
      tableSize (sts.foldl (fun t r => tableInsert r.2.1 r.2.2 r.1 t) t0) =
        tableSize t0 + sts.length by
    have h0 := h []
    have hz : tableSize ([] : Table) = 0 := rfl
    rw [aggregate, h0, hz, Nat.zero_add]
  induction sts with
  | nil => intro t0; simp
  | cons hd tl ih =>
    intro t0
    rw [List.foldl_cons, ih, tableInsert_size, List.length_cons]
    omega

/-- Conditional conservation law: if the extraction loop completes
without a panic on `(L, n)`, the sum of `(2*momentum+1)*multiplet` over
the emitted term sequence equals `C(2*(2L+1), n)` exactly (every
microstate is removed exactly once before the table empties). -/
theorem eeTerms_conservation (L n : Nat) (keys log : List TermType)
    (h : eeTermsResult L n = some (keys, log)) :
    (log.map termWeight).sum = Nat.choose (2 * (2 * L + 1)) n := by
  rw [eeTermsResult] at h
  cases hf : eeTermsFull L n with
  | none =>
    rw [hf] at h
    cases h
  | some p =>
    rw [hf] at h
    simp only [Option.map_some', Option.some.injEq, Prod.mk.injEq] at h
    obtain ⟨-, hl⟩ := h
    rw [eeTermsFull] at hf
    obtain ⟨em, hlog, -, -, hsum⟩ := extractLoop_props _ _ _ _ _ hf
    rw [List.nil_append] at hlog
    subst hl
    rw [hlog, hsum, aggregate_size, levelStates, List.length_map,
      length_combinations, List.length_range, singleStates_length]

set_option maxRecDepth 100000 in
/-- Exhaustive check on the subshells small enough to evaluate: for
every `L < 3` and every valid `n`, the extraction loop completes without
hitting any of its panics, with an empty table. -/
theorem eeTerms_success_small :
    ∀ L < 3, ∀ n < 2 * (2 * L + 1) + 1, (eeTermsResult L n).isSome = true := by
  decide

end Chitose
